import Mathlib

/-!
Verification of the vocabulary-translator program (`src/translator_final.py`).

The program loads a comma-delimited vocabulary file whose header names a
case-insensitive `english` source column plus one or more target-language
columns, builds a nested dictionary
`{target_language : {english_word : translation}}`, and then runs a
two-level interactive console loop (language selection, then word lookup).

The embedding below models:
  * Python string primitives used by the program (`str.strip`, `str.lower`,
    ASCII fold as sanctioned by the design notes);
  * Python `dict` as an association list with insertion-order semantics
    (overwrite keeps the position of the key, a fresh key is appended);
  * the loader `load_translations_from_file`, split into the pure table
    construction on already-split rows, the warning/error messages it
    prints, and the `try/except` wrapper over the file input;
  * the line-splitting step performed by `csv.reader` with the comma
    delimiter for quote-free input lines;
  * the interactive shell as a state machine with explicit input/output.
-/

set_option maxHeartbeats 1000000

namespace Translator

/-! ## Python string primitives -/

/-- The whitespace characters stripped by Python's `str.strip()` on the
character set relevant here: space, tab, newline, carriage return,
vertical tab, form feed (code points 32, 9, 10, 13, 11, 12). -/
def isPySpace (c : Char) : Bool :=
  c.toNat = 32 || c.toNat = 9 || c.toNat = 10 || c.toNat = 13 ||
    c.toNat = 11 || c.toNat = 12

/-- Remove leading and trailing whitespace from a character list,
modelling Python's `str.strip()`. -/
def pyStripList (l : List Char) : List Char :=
  ((l.dropWhile isPySpace).reverse.dropWhile isPySpace).reverse

/-- Python's `str.strip()`. -/
def pyStrip (s : String) : String :=
  ⟨pyStripList s.data⟩

/-- Python's `str.lower()` restricted to the ASCII fold (`chr(ord(c)+32)`
for `A`–`Z`), which is `Char.toLower`; the design notes treat the ASCII
fold as sufficient. -/
def pyLower (s : String) : String :=
  ⟨s.data.map Char.toLower⟩

/-! ## Python `dict` as an association list -/

/-- `d.get(k)` / `d[k]` on a Python dict modelled as an association list:
the first entry with the given key (keys are unique by construction). -/
def dictGet {α : Type} : List (String × α) → String → Option α
  | [], _ => none
  | (k', v) :: rest, k => if k' = k then some v else dictGet rest k

/-- `d[k] = v` on a Python dict: overwriting keeps the key's position,
a fresh key is appended at the end. -/
def dictInsert {α : Type} : List (String × α) → String → α → List (String × α)
  | [], k, v => [(k, v)]
  | (k', v') :: rest, k, v =>
      if k' = k then (k, v) :: rest else (k', v') :: dictInsert rest k v

/-- `list(d.keys())` of a Python dict. -/
def dictKeys {α : Type} (d : List (String × α)) : List String :=
  d.map Prod.fst

/-- One per-language dictionary `{english_word : translation}`. -/
abbrev WordMap := List (String × String)

/-- The nested dictionary `{target_language : {english_word : translation}}`
returned by the loader. -/
abbrev VocabTable := List (String × WordMap)

/-! ## The loader (`load_translations_from_file`, lines 25–116) -/

/-- `column_indices`: `for i, header in enumerate(headers): column_indices[header] = i`
(a later duplicate header overwrites an earlier one's index). -/
def buildColumnIndices (headers : List String) : List (String × Nat) :=
  headers.enum.foldl (fun d p => dictInsert d p.2 p.1) []

/-- `max(column_indices.values())` (the indices are naturals, and the
function is only consulted when the `english` column exists, so the
dictionary is nonempty and the `0` base is never the maximum). -/
def dictValuesMax (d : List (String × Nat)) : Nat :=
  (d.map Prod.snd).foldl Nat.max 0

/-- The skip test of line 93: `not parts or all(not p.strip() for p in parts)`. -/
def rowBlank (parts : List String) : Bool :=
  parts.isEmpty || parts.all (fun p => (pyStrip p).data.isEmpty)

/-- `all_language_translations[lang][english_word] = translation` (line 105):
update the word map stored under `lang` (the language is always a key of
the table on the reachable path, because the table was initialised with
every detected target language). -/
def tableSetWord (t : VocabTable) (lang w tr : String) : VocabTable :=
  t.map (fun p => if p.1 = lang then (p.1, dictInsert p.2 w tr) else p)

/-- The body of the data-row loop (lines 91–108): skip blank rows, skip
rows without enough columns, otherwise insert the row's source word and
per-language translations. -/
def processRow (column_indices : List (String × Nat)) (targets : List String)
    (english_idx : Nat) (table : VocabTable) (parts : List String) : VocabTable :=
  if rowBlank parts then table
  else if dictValuesMax column_indices < parts.length then
    let english_word := pyLower (pyStrip (parts.getD english_idx ""))
    targets.foldl
      (fun t lang =>
        tableSetWord t lang english_word
          (pyStrip (parts.getD ((dictGet column_indices lang).getD 0) "")))
      table
  else table

/-- `{lang: {} for lang in detected_target_languages}` (line 85): the table
mapping each detected target language to an empty word map. -/
def initTable (targets : List String) : VocabTable :=
  targets.foldl (fun t lang => dictInsert t lang []) []

/-- The normalised header fields: `[h.strip().lower() for h in header_row]`. -/
def normHeaders (header_row : List String) : List String :=
  header_row.map (fun h => pyLower (pyStrip h))

/-- `detected_target_languages`: all normalised headers other than `english`. -/
def detectedTargets (header_row : List String) : List String :=
  (normHeaders header_row).filter (fun h => h ≠ "english")

/-- The pure part of `load_translations_from_file`, acting on the rows
produced by `csv.reader` (each row a list of field strings): header
normalisation, `english`-column check, target detection, initialisation,
and the data-row loop. Returns `[]` (the empty dict) when there is no
header row or no `english` column. -/
def load_translations_from_rows (rows : List (List String)) : VocabTable :=
  match rows with
  | [] => []
  | header_row :: dataRows =>
    let headers := normHeaders header_row
    let column_indices := buildColumnIndices headers
    if (dictGet column_indices "english").isNone then []
    else
      let targets := headers.filter (fun h => h ≠ "english")
      let english_idx := (dictGet column_indices "english").getD 0
      dataRows.foldl (processRow column_indices targets english_idx) (initTable targets)

/-- The messages the loader prints. -/
inductive LogMsg where
  | errorEmptyOrMissingHeader
  | errorMissingEnglishColumn
  | warningMalformedRow (parts : List String)
  | errorFileNotFound
  | errorUnexpected
  deriving DecidableEq, Repr

/-- The messages printed by the row-processing part of the loader, in
order: the missing-header and missing-`english`-column errors, and one
warning per non-blank row with too few columns (lines 63–64, 76–77, 108). -/
def load_log (rows : List (List String)) : List LogMsg :=
  match rows with
  | [] => [LogMsg.errorEmptyOrMissingHeader]
  | header_row :: dataRows =>
    let column_indices := buildColumnIndices (normHeaders header_row)
    if (dictGet column_indices "english").isNone then
      [LogMsg.errorMissingEnglishColumn]
    else
      dataRows.filterMap (fun parts =>
        if rowBlank parts then none
        else if dictValuesMax column_indices < parts.length then none
        else some (LogMsg.warningMalformedRow parts))

/-- The outcome of opening and reading the file: the parsed rows on
success, or one of the two exception classes the code catches
(`FileNotFoundError`, and any other `Exception`). -/
inductive FileInput where
  | fileNotFound
  | ioError
  | content (rows : List (List String))

/-- `load_translations_from_file` including its `try/except` wrapper:
the built table together with the printed messages. Every error path
returns the empty dict `{}`. -/
def load_translations_from_file (input : FileInput) : VocabTable × List LogMsg :=
  match input with
  | .fileNotFound => ([], [LogMsg.errorFileNotFound])
  | .ioError => ([], [LogMsg.errorUnexpected])
  | .content rows => (load_translations_from_rows rows, load_log rows)

/-! ## Line splitting (`csv.reader(f, delimiter=',')`) on quote-free lines -/

/-- Split a character list at commas (accumulator holds the current field
reversed). This is what `csv.reader` with `delimiter=','` does to a line
containing no quote characters. -/
def splitCommaAux : List Char → List Char → List String
  | [], acc => [⟨acc.reverse⟩]
  | c :: rest, acc =>
      if c = ',' then ⟨acc.reverse⟩ :: splitCommaAux rest [] else splitCommaAux rest (c :: acc)

/-- Split one input line into comma-separated fields. -/
def splitLine (s : String) : List String :=
  splitCommaAux s.data []

/-- Parse a whole file, given as its list of lines, into rows of fields. -/
def parseFile (lines : List String) : List (List String) :=
  lines.map splitLine

/-- `all_translations[lang].get(word)`, guarded by the language being a
key of the table (which the shell guarantees before the lookup). -/
def tableLookup (t : VocabTable) (lang w : String) : Option String :=
  match dictGet t lang with
  | none => none
  | some m => dictGet m w

/-- The column index assigned to a (normalised) header name:
`column_indices[h]`. -/
def colIdx (header_row : List String) (h : String) : Nat :=
  (dictGet (buildColumnIndices (normHeaders header_row)) h).getD 0

/-- The source word extracted from a data row: `parts[english_idx].strip().lower()`. -/
def srcWord (header_row : List String) (parts : List String) : String :=
  pyLower (pyStrip (parts.getD (colIdx header_row "english") ""))

/-- The translation extracted from a data row for a target language:
`parts[column_indices[lang]].strip()`. -/
def transFor (header_row : List String) (parts : List String) (lang : String) : String :=
  pyStrip (parts.getD (colIdx header_row lang) "")

/-- The acceptance test of the data-row loop: the row is not blank and has
more fields than the highest required column index. -/
def rowAccepted (header_row : List String) (parts : List String) : Bool :=
  !rowBlank parts &&
    decide (dictValuesMax (buildColumnIndices (normHeaders header_row)) < parts.length)

/-! ## The interactive shell (lines 121–201) -/

/-- The module-level data the shell loop reads: the loaded table,
`available_target_languages = list(all_translations.keys())`, and
`available_english_words` (the sorted keys of the first target language's
word map when that map is non-empty, `[]` otherwise). -/
structure ShellConfig where
  all_translations : VocabTable
  available_target_languages : List String
  available_english_words : List String
  deriving Repr

/-- Lines 129–142: derive the shell's configuration from the loaded table. -/
def mkConfig (all_translations : VocabTable) : ShellConfig :=
  let available_target_languages := all_translations.map Prod.fst
  let available_english_words :=
    match available_target_languages with
    | [] => []
    | first_target_lang :: _ =>
      match dictGet all_translations first_target_lang with
      | some m => if m.isEmpty then [] else (m.map Prod.fst).mergeSort (fun a b => a ≤ b)
      | none => []
  ⟨all_translations, available_target_languages, available_english_words⟩

/-- The control state of the two nested `while` loops: prompting for a
language (outer), prompting for a word with a language chosen (inner),
or terminated by `exit`. -/
inductive ShellState where
  | outer
  | inner (lang : String)
  | exited
  deriving DecidableEq, Repr

/-- The messages printed by one step of the shell loop. -/
inductive ShellOut where
  | invalidLanguage
  | noWordsAvailable
  | returningToLanguageSelection
  | translationIs (word lang translation : String)
  | notAvailable (word lang : String)
  | guidance
  | farewell
  deriving DecidableEq, Repr

/-- One reaction of the shell to one input line: the outer loop body
(lines 159–176) in state `outer`, the inner loop body (lines 179–199) in
state `inner lang`. Every input is lowercased (never stripped) before any
comparison; `exit` is checked before the language test; a found but
empty-string translation is falsy in Python and therefore takes the
not-available branch. -/
def shellStep (cfg : ShellConfig) : ShellState → String → ShellState × List ShellOut
  | .outer, input =>
    let user_language_choice := pyLower input
    if user_language_choice = "exit" then (.exited, [.farewell])
    else if user_language_choice ∉ cfg.available_target_languages then
      (.outer, [.invalidLanguage])
    else if cfg.available_english_words.isEmpty then (.outer, [.noWordsAvailable])
    else (.inner user_language_choice, [])
  | .inner lang, input =>
    let user_word_input := pyLower input
    if user_word_input = "back" then (.outer, [.returningToLanguageSelection])
    else
      match tableLookup cfg.all_translations lang user_word_input with
      | some translated_word =>
        if translated_word.data.isEmpty then
          (.inner lang, [.notAvailable user_word_input lang, .guidance])
        else (.outer, [.translationIs user_word_input lang translated_word])
      | none => (.inner lang, [.notAvailable user_word_input lang, .guidance])
  | .exited, _ => (.exited, [])

/-- Run the shell on a list of input lines, collecting the printed
messages; consumption stops once the program has exited (remaining
input is never read). Exhausting the list models the input stream
closing. -/
def shellRun (cfg : ShellConfig) : ShellState → List String → ShellState × List ShellOut
  | s, [] => (s, [])
  | s, input :: rest =>
    match shellStep cfg s input with
    | (s', out) =>
      match s' with
      | .exited => (.exited, out)
      | _ =>
        match shellRun cfg s' rest with
        | (s'', outs) => (s'', out ++ outs)

/-! ## Lemmas about the Python string primitives -/

theorem toNat_ofNat_of_lt {n : Nat} (h : n < 55296) : (Char.ofNat n).toNat = n := by
  unfold Char.ofNat
  rw [dif_pos (Or.inl h)]
  rfl

theorem string_mk_inj {a b : List Char} : (⟨a⟩ : String) = ⟨b⟩ ↔ a = b :=
  ⟨fun h => by cases h; rfl, fun h => by rw [h]⟩

theorem isPySpace_toLower (c : Char) : isPySpace (Char.toLower c) = isPySpace c := by
  show isPySpace (if c.toNat ≥ 65 ∧ c.toNat ≤ 90 then Char.ofNat (c.toNat + 32) else c)
      = isPySpace c
  by_cases h : c.toNat ≥ 65 ∧ c.toNat ≤ 90
  case pos =>
    rw [if_pos h]
    obtain ⟨h1, h2⟩ := h
    have hv : (Char.ofNat (c.toNat + 32)).toNat = c.toNat + 32 :=
      toNat_ofNat_of_lt (by omega)
    have e1 : isPySpace c = false := by
      simp only [isPySpace, Bool.or_eq_false_iff, decide_eq_false_iff_not]
      omega
    have e2 : isPySpace (Char.ofNat (c.toNat + 32)) = false := by
      simp only [isPySpace, hv, Bool.or_eq_false_iff, decide_eq_false_iff_not]
      omega
    rw [e1, e2]
  case neg => rw [if_neg h]

theorem dropWhile_head_false {p : α → Bool} {l : List α} {c : α} {r : List α}
    (h : l.dropWhile p = c :: r) : p c = false := by
  have := List.head?_dropWhile_not p l
  rw [h] at this
  simpa using this

theorem length_pyStripList_le (l : List Char) :
    (pyStripList l).length ≤ (l.dropWhile isPySpace).length := by
  unfold pyStripList
  have h := (List.dropWhile_suffix (l := (l.dropWhile isPySpace).reverse) isPySpace).length_le
  simpa using h

theorem pyStripList_ne_of_head_ws {c : Char} {l : List Char}
    (h : isPySpace c = true) : pyStripList (c :: l) ≠ c :: l := by
  intro heq
  have h1 : ((c :: l).dropWhile isPySpace) = l.dropWhile isPySpace := by
    simp [List.dropWhile_cons, h]
  have h2 := length_pyStripList_le (c :: l)
  rw [heq, h1] at h2
  have h3 := (List.dropWhile_suffix (l := l) isPySpace).length_le
  simp only [List.length_cons] at h2
  omega

theorem pyStripList_ne_of_revhead_ws {c : Char} {l r : List Char}
    (hrev : l.reverse = c :: r) (h : isPySpace c = true) : pyStripList l ≠ l := by
  intro heq
  -- if the whole strip is the identity, the first phase must be the identity
  have hlen := length_pyStripList_le l
  rw [heq] at hlen
  have hsuf := (List.dropWhile_suffix (l := l) isPySpace).length_le
  have hfix : l.dropWhile isPySpace = l :=
    (List.dropWhile_suffix (l := l) isPySpace).eq_of_length (by omega)
  -- then the second phase must strip the reversed list to itself
  have h2 : (l.reverse.dropWhile isPySpace).reverse = l := by
    unfold pyStripList at heq
    rwa [hfix] at heq
  have h3 : l.reverse.dropWhile isPySpace = l.reverse := by
    have := congrArg List.reverse h2
    simpa using this
  rw [hrev] at h3
  simp [List.dropWhile_cons, h] at h3
  have := (List.dropWhile_suffix (l := r) isPySpace).length_le
  have hl := congrArg List.length h3
  simp at hl
  omega

theorem pyStripList_eq_self {l : List Char}
    (hhead : ∀ c r, l = c :: r → isPySpace c = false)
    (hlast : ∀ c r, l.reverse = c :: r → isPySpace c = false) :
    pyStripList l = l := by
  match hl : l with
  | [] => rfl
  | c :: r =>
    have h1 : (c :: r).dropWhile isPySpace = c :: r := by
      simp [List.dropWhile_cons, hhead c r rfl]
    unfold pyStripList
    rw [h1]
    match hr : (c :: r).reverse with
    | [] => simp at hr
    | d :: u =>
      have h2 : (d :: u).dropWhile isPySpace = d :: u := by
        simp [List.dropWhile_cons, hlast d u hr]
      rw [h2, ← hr]
      simp

theorem pyStripList_ne_cases {l : List Char} (h : pyStripList l ≠ l) :
    (∃ c r, l = c :: r ∧ isPySpace c = true) ∨
      (∃ c r, l.reverse = c :: r ∧ isPySpace c = true) := by
  by_contra hcon
  push_neg at hcon
  obtain ⟨hh, hr⟩ := hcon
  exact h (pyStripList_eq_self
    (fun c r e => by
      have := hh c r e
      simpa using this)
    (fun c r e => by
      have := hr c r e
      simpa using this))

/-- The head of a stripped list is not whitespace. -/
theorem pyStripList_head_false {l : List Char} {c : Char} {r : List Char}
    (h : pyStripList l = c :: r) : isPySpace c = false := by
  -- the stripped list is the reverse of a `dropWhile`, i.e. a prefix of the
  -- first-phase result, whose head is not whitespace
  unfold pyStripList at h
  obtain ⟨t, ht⟩ := List.dropWhile_suffix (l := (l.dropWhile isPySpace).reverse) isPySpace
  have hpre : l.dropWhile isPySpace =
      ((l.dropWhile isPySpace).reverse.dropWhile isPySpace).reverse ++ t.reverse := by
    have := congrArg List.reverse ht
    simpa using this.symm
  rw [h] at hpre
  exact dropWhile_head_false (l := l) hpre

/-- The last element of a stripped list (as head of its reverse) is not
whitespace. -/
theorem pyStripList_revhead_false {l : List Char} {c : Char} {r : List Char}
    (h : (pyStripList l).reverse = c :: r) : isPySpace c = false := by
  unfold pyStripList at h
  simp only [List.reverse_reverse] at h
  exact dropWhile_head_false h

theorem pyStripList_idem (l : List Char) : pyStripList (pyStripList l) = pyStripList l :=
  pyStripList_eq_self
    (fun _ _ e => pyStripList_head_false e)
    (fun _ _ e => pyStripList_revhead_false e)

theorem pyStrip_eq_iff {s : String} : pyStrip s = s ↔ pyStripList s.data = s.data := by
  cases s with
  | mk data => simp [pyStrip, string_mk_inj]

theorem pyStrip_pyStrip (s : String) : pyStrip (pyStrip s) = pyStrip s := by
  cases s with
  | mk data => simp [pyStrip, string_mk_inj, pyStripList_idem]

/-- Lowercasing preserves strip-fixedness: stripping never removes
anything from a lowercased already-stripped string. -/
theorem pyStrip_pyLower_of_fixed {s : String} (h : pyStrip s = s) :
    pyStrip (pyLower s) = pyLower s := by
  rw [pyStrip_eq_iff] at h ⊢
  show pyStripList (s.data.map Char.toLower) = s.data.map Char.toLower
  apply pyStripList_eq_self
  · intro c r e
    match hd : s.data with
    | [] => rw [hd] at e; simp at e
    | c0 :: r0 =>
      rw [hd] at e
      simp only [List.map_cons, List.cons.injEq] at e
      rw [hd] at h
      have h0 : isPySpace c0 = false := pyStripList_head_false (r := r0) (by rw [h])
      rw [← e.1, isPySpace_toLower]
      exact h0
  · intro c r e
    rw [← List.map_reverse] at e
    match hd : s.data.reverse with
    | [] => rw [hd] at e; simp at e
    | c0 :: r0 =>
      rw [hd] at e
      simp only [List.map_cons, List.cons.injEq] at e
      have h0 : isPySpace c0 = false := by
        apply pyStripList_revhead_false (l := s.data) (r := r0)
        rw [h, hd]
      rw [← e.1, isPySpace_toLower]
      exact h0

/-- The central fact behind the whitespace claim: an input with leading or
trailing whitespace, once lowercased, can never equal a strip-fixed string
(all stored keys and both keywords are strip-fixed). -/
theorem pyLower_ne_of_strip_fixed {s t : String} (ht : pyStrip t = t)
    (hs : pyStrip s ≠ s) : pyLower s ≠ t := by
  intro heq
  have hfix : pyStrip (pyLower s) = pyLower s := by rw [heq]; exact ht
  rw [pyStrip_eq_iff] at hfix
  rw [Ne, pyStrip_eq_iff] at hs
  rcases pyStripList_ne_cases hs with ⟨c, r, e, hws⟩ | ⟨c, r, e, hws⟩
  · have : pyStripList (s.data.map Char.toLower) ≠ s.data.map Char.toLower := by
      rw [e]
      simp only [List.map_cons]
      exact pyStripList_ne_of_head_ws (by rw [isPySpace_toLower]; exact hws)
    exact this hfix
  · have : pyStripList (s.data.map Char.toLower) ≠ s.data.map Char.toLower := by
      apply pyStripList_ne_of_revhead_ws (c := Char.toLower c) (r := r.map Char.toLower)
      · rw [← List.map_reverse, e, List.map_cons]
      · rw [isPySpace_toLower]; exact hws
    exact this hfix

/-! ## Lemmas about the dictionary model -/

theorem dictGet_dictInsert {α : Type} (d : List (String × α)) (k k' : String) (v : α) :
    dictGet (dictInsert d k v) k' = if k' = k then some v else dictGet d k' := by
  induction d with
  | nil =>
    by_cases h : k' = k
    · subst h; simp [dictInsert, dictGet]
    · have h' : ¬k = k' := fun hh => h hh.symm
      simp [dictInsert, dictGet, h, h']
  | cons p rest ih =>
    obtain ⟨k0, v0⟩ := p
    by_cases h0 : k0 = k
    · subst h0
      by_cases h1 : k' = k0
      · subst h1; simp [dictInsert, dictGet]
      · have h1' : ¬k0 = k' := fun hh => h1 hh.symm
        simp [dictInsert, dictGet, h1, h1']
    · by_cases h1 : k0 = k'
      · subst h1
        simp [dictInsert, dictGet, h0]
      · simp [dictInsert, dictGet, h0, h1, ih]

theorem dictInsert_dictInsert_same {α : Type} (d : List (String × α)) (k : String) (v : α) :
    dictInsert (dictInsert d k v) k v = dictInsert d k v := by
  induction d with
  | nil => simp [dictInsert]
  | cons p rest ih =>
    obtain ⟨k0, v0⟩ := p
    by_cases h0 : k0 = k
    · subst h0
      simp [dictInsert]
    · simp [dictInsert, h0, ih]

theorem dictKeys_dictInsert {α : Type} (d : List (String × α)) (k : String) (v : α) :
    dictKeys (dictInsert d k v) =
      if k ∈ dictKeys d then dictKeys d else dictKeys d ++ [k] := by
  induction d with
  | nil => simp [dictInsert, dictKeys]
  | cons p rest ih =>
    obtain ⟨k0, v0⟩ := p
    by_cases h0 : k0 = k
    · subst h0
      simp [dictInsert, dictKeys]
    · simp only [dictInsert, if_neg h0, dictKeys, List.map_cons]
      rw [show (dictInsert rest k v).map Prod.fst = dictKeys (dictInsert rest k v) from rfl, ih]
      have hne : ¬k = k0 := fun h => h0 h.symm
      by_cases h1 : k ∈ dictKeys rest
      · simp only [dictKeys] at h1 ⊢
        simp [h1, hne]
      · simp only [dictKeys] at h1 ⊢
        simp [h1, hne]

theorem mem_dictInsert {α : Type} {d : List (String × α)} {k : String} {v : α} :
    ∀ {p : String × α}, p ∈ dictInsert d k v → p ∈ d ∨ p = (k, v) := by
  induction d with
  | nil =>
    intro p h
    simp only [dictInsert, List.mem_singleton] at h
    right; exact h
  | cons q rest ih =>
    intro p h
    obtain ⟨k0, v0⟩ := q
    by_cases h0 : k0 = k
    · subst h0
      simp [dictInsert] at h
      rcases h with h | h
      · right; exact h
      · left; exact List.mem_cons_of_mem _ h
    · simp only [dictInsert, if_neg h0, List.mem_cons] at h
      rcases h with h | h
      · subst h; left; exact List.mem_cons_self _ _
      · rcases ih h with h1 | h1
        · left; exact List.mem_cons_of_mem _ h1
        · right; exact h1

theorem dictGet_eq_none {α : Type} {d : List (String × α)} {k : String}
    (h : ∀ p ∈ d, p.1 ≠ k) : dictGet d k = none := by
  induction d with
  | nil => rfl
  | cons p rest ih =>
    obtain ⟨k0, v0⟩ := p
    have hne : k0 ≠ k := h (k0, v0) (by simp)
    simp only [dictGet, if_neg hne]
    exact ih (fun q hq => h q (by simp [hq]))

theorem dictGet_isSome_iff {α : Type} (d : List (String × α)) (k : String) :
    (dictGet d k).isSome = true ↔ k ∈ dictKeys d := by
  induction d with
  | nil => simp [dictGet, dictKeys]
  | cons p rest ih =>
    obtain ⟨k0, v0⟩ := p
    by_cases h0 : k0 = k
    · subst h0
      simp [dictGet, dictKeys]
    · have hne : ¬k = k0 := fun h => h0 h.symm
      simp only [dictGet, if_neg h0, dictKeys, List.map_cons, List.mem_cons]
      rw [show rest.map Prod.fst = dictKeys rest from rfl]
      simp [ih, hne]

/-! ## Characterisation of the loader's fold -/

/-- The effect of one data row on the word map stored under `lang`
(pointwise form of one iteration of the data-row loop). -/
def applyRow (column_indices : List (String × Nat)) (targets : List String)
    (english_idx : Nat) (parts : List String) (lang : String) (m : WordMap) : WordMap :=
  if rowBlank parts then m
  else if dictValuesMax column_indices < parts.length then
    if lang ∈ targets then
      dictInsert m (pyLower (pyStrip (parts.getD english_idx "")))
        (pyStrip (parts.getD ((dictGet column_indices lang).getD 0) ""))
    else m
  else m

/-- The effect of a list of data rows on the word map stored under `lang`. -/
def applyRows (column_indices : List (String × Nat)) (targets : List String)
    (english_idx : Nat) (data : List (List String)) (lang : String) (m : WordMap) : WordMap :=
  data.foldl (fun m parts => applyRow column_indices targets english_idx parts lang m) m

theorem foldl_tableSetWord_eq_map (w : String) (trF : String → String) :
    ∀ (targets : List String) (t : VocabTable),
      targets.foldl (fun t lang => tableSetWord t lang w (trF lang)) t
        = t.map (fun p =>
            (p.1, if p.1 ∈ targets then dictInsert p.2 w (trF p.1) else p.2)) := by
  intro targets
  induction targets with
  | nil => intro t; simp
  | cons l0 rest ih =>
    intro t
    simp only [List.foldl_cons]
    rw [ih (tableSetWord t l0 w (trF l0))]
    unfold tableSetWord
    rw [List.map_map]
    apply List.map_congr_left
    intro p _
    simp only [Function.comp]
    by_cases h0 : p.1 = l0
    · by_cases h1 : p.1 ∈ rest
      · simp [h0, h1, dictInsert_dictInsert_same]
      · simp [h0, h1, dictInsert_dictInsert_same]
    · by_cases h1 : p.1 ∈ rest
      · simp [h0, h1]
      · simp [h0, h1]

theorem processRow_eq_map (cidx : List (String × Nat)) (targets : List String)
    (eidx : Nat) (t : VocabTable) (parts : List String) :
    processRow cidx targets eidx t parts
      = t.map (fun p => (p.1, applyRow cidx targets eidx parts p.1 p.2)) := by
  cases hb : rowBlank parts with
  | true =>
    have hA : ∀ lang (m : WordMap), applyRow cidx targets eidx parts lang m = m := by
      intro lang m; unfold applyRow; simp [hb]
    simp [processRow, hb, hA]
  | false =>
    by_cases hl : dictValuesMax cidx < parts.length
    · have hA : ∀ lang (m : WordMap), applyRow cidx targets eidx parts lang m =
          if lang ∈ targets then
            dictInsert m (pyLower (pyStrip (parts.getD eidx "")))
              (pyStrip (parts.getD ((dictGet cidx lang).getD 0) ""))
          else m := by
        intro lang m; unfold applyRow; simp [hb, hl]
      simp only [processRow, hb, Bool.false_eq_true, if_false, if_pos hl, hA]
      exact foldl_tableSetWord_eq_map _
        (fun lang => pyStrip (parts.getD ((dictGet cidx lang).getD 0) "")) targets t
    · have hA : ∀ lang (m : WordMap), applyRow cidx targets eidx parts lang m = m := by
        intro lang m; unfold applyRow; simp [hb, hl]
      simp [processRow, hb, hl, hA]

theorem foldl_processRow_eq_map (cidx : List (String × Nat)) (targets : List String)
    (eidx : Nat) :
    ∀ (data : List (List String)) (t : VocabTable),
      data.foldl (processRow cidx targets eidx) t
        = t.map (fun p => (p.1, applyRows cidx targets eidx data p.1 p.2)) := by
  intro data
  induction data with
  | nil => intro t; simp [applyRows]
  | cons r rest ih =>
    intro t
    simp only [List.foldl_cons]
    rw [processRow_eq_map, ih, List.map_map]
    apply List.map_congr_left
    intro p _
    simp [applyRows, Function.comp]

theorem dictGet_map_keyfun {α β : Type} (g : String → α → β) (k : String) :
    ∀ (t : List (String × α)),
      dictGet (t.map (fun p => (p.1, g p.1 p.2))) k = (dictGet t k).map (g k) := by
  intro t
  induction t with
  | nil => rfl
  | cons p rest ih =>
    by_cases h : p.1 = k
    · simp [dictGet, h]
    · simp [dictGet, h, ih]

theorem dictGet_initTable_aux (k : String) :
    ∀ (targets : List String) (d : VocabTable),
      dictGet (targets.foldl (fun t lang => dictInsert t lang []) d) k
        = if k ∈ targets then some [] else dictGet d k := by
  intro targets
  induction targets with
  | nil => intro d; simp
  | cons l0 rest ih =>
    intro d
    simp only [List.foldl_cons]
    rw [ih]
    by_cases h0 : k ∈ rest
    · simp [h0]
    · by_cases h1 : k = l0
      · simp [h0, h1, dictGet_dictInsert]
      · simp [h0, h1, dictGet_dictInsert]

theorem dictGet_initTable (targets : List String) (k : String) :
    dictGet (initTable targets) k = if k ∈ targets then some [] else none :=
  dictGet_initTable_aux k targets []

theorem mem_initTable {targets : List String} {p : String × WordMap} :
    p ∈ initTable targets → p.1 ∈ targets ∧ p.2 = [] := by
  have haux : ∀ (ts : List String) (d : VocabTable) (q : String × WordMap),
      q ∈ ts.foldl (fun t lang => dictInsert t lang []) d →
        (q.1 ∈ ts ∧ q.2 = []) ∨ q ∈ d := by
    intro ts
    induction ts with
    | nil => intro d q h; right; exact h
    | cons l0 rest ih =>
      intro d q h
      simp only [List.foldl_cons] at h
      rcases ih (dictInsert d l0 []) q h with h1 | h1
      · left; exact ⟨List.mem_cons_of_mem _ h1.1, h1.2⟩
      · rcases mem_dictInsert h1 with h2 | h2
        · right; exact h2
        · left
          constructor
          · rw [h2]; exact List.mem_cons_self _ _
          · rw [h2]
  intro h
  rcases haux targets [] p h with h1 | h1
  · exact h1
  · simp at h1

theorem dictGet_foldl_insert_pairs (k : String) :
    ∀ (ps : List (Nat × String)) (d : List (String × Nat)),
      (dictGet (ps.foldl (fun d p => dictInsert d p.2 p.1) d) k).isSome = true
        ↔ k ∈ ps.map Prod.snd ∨ (dictGet d k).isSome = true := by
  intro ps
  induction ps with
  | nil => intro d; simp
  | cons p rest ih =>
    intro d
    simp only [List.foldl_cons, List.map_cons, List.mem_cons]
    rw [ih]
    by_cases h : k = p.2
    · simp [h, dictGet_dictInsert]
    · simp [h, dictGet_dictInsert]

/-- The `english`-column test of line 76: the header dictionary has the
key iff the normalised header list contains it. -/
theorem dictGet_buildColumnIndices_isSome (headers : List String) (k : String) :
    (dictGet (buildColumnIndices headers) k).isSome = true ↔ k ∈ headers := by
  unfold buildColumnIndices
  rw [dictGet_foldl_insert_pairs]
  simp [List.enum, List.enumFrom_map_snd, dictGet]

/-- The loaded table, spelled as the per-language transformation of the
initial table: entry `lang` holds the word map obtained by replaying every
data row on the empty map. -/
theorem load_eq_map (header_row : List String) (data : List (List String))
    (hEng : "english" ∈ normHeaders header_row) :
    load_translations_from_rows (header_row :: data)
      = (initTable (detectedTargets header_row)).map
          (fun p => (p.1, applyRows (buildColumnIndices (normHeaders header_row))
            (detectedTargets header_row) (colIdx header_row "english") data p.1 p.2)) := by
  have hSome : (dictGet (buildColumnIndices (normHeaders header_row)) "english").isSome = true :=
    (dictGet_buildColumnIndices_isSome _ _).mpr hEng
  obtain ⟨i, hi⟩ := Option.isSome_iff_exists.mp hSome
  simp only [load_translations_from_rows, hi, Option.isNone_some, Bool.false_eq_true, if_false]
  rw [foldl_processRow_eq_map]
  unfold detectedTargets colIdx
  rw [hi]

/-- The table missing the `english` column: the loader returns the empty
dictionary. -/
theorem load_eq_nil (header_row : List String) (data : List (List String))
    (hEng : "english" ∉ normHeaders header_row) :
    load_translations_from_rows (header_row :: data) = [] := by
  have hNone : ¬(dictGet (buildColumnIndices (normHeaders header_row)) "english").isSome = true :=
    fun h => hEng ((dictGet_buildColumnIndices_isSome _ _).mp h)
  rw [Option.not_isSome_iff_eq_none] at hNone
  simp only [load_translations_from_rows, hNone, Option.isNone_none, if_true]

/-- The value recorded for source word `w` under language `lang` after a
list of data rows: the translation from the last accepted row whose
source word is `w`, else the incoming value. -/
def lastAux (column_indices : List (String × Nat)) (english_idx : Nat)
    (lang w : String) (data : List (List String)) (acc : Option String) : Option String :=
  data.foldl (fun a parts =>
    if rowBlank parts = false ∧ dictValuesMax column_indices < parts.length ∧
        pyLower (pyStrip (parts.getD english_idx "")) = w then
      some (pyStrip (parts.getD ((dictGet column_indices lang).getD 0) ""))
    else a) acc

theorem dictGet_applyRows (cidx : List (String × Nat)) (targets : List String)
    (eidx : Nat) (lang w : String) (hmem : lang ∈ targets) :
    ∀ (data : List (List String)) (m : WordMap),
      dictGet (applyRows cidx targets eidx data lang m) w
        = lastAux cidx eidx lang w data (dictGet m w) := by
  intro data
  induction data with
  | nil => intro m; rfl
  | cons r rest ih =>
    intro m
    show dictGet (applyRows cidx targets eidx rest lang (applyRow cidx targets eidx r lang m)) w
      = lastAux cidx eidx lang w rest
          (if rowBlank r = false ∧ dictValuesMax cidx < r.length ∧
              pyLower (pyStrip (r.getD eidx "")) = w then
            some (pyStrip (r.getD ((dictGet cidx lang).getD 0) ""))
          else dictGet m w)
    rw [ih]
    congr 1
    unfold applyRow
    cases hb : rowBlank r with
    | true => simp
    | false =>
      have h1 : ¬(false = true) := by simp
      by_cases hl : dictValuesMax cidx < r.length
      · rw [if_neg h1, if_pos hl, if_pos hmem, dictGet_dictInsert]
        by_cases hw : pyLower (pyStrip (r.getD eidx "")) = w
        · rw [if_pos hw.symm, if_pos]
          exact ⟨rfl, hl, hw⟩
        · have hw' : ¬w = pyLower (pyStrip (r.getD eidx "")) := fun h => hw h.symm
          rw [if_neg hw', if_neg]
          exact fun hc => hw hc.2.2
      · simp [hl]

/-- The list of word-map keys after a list of data rows: one key per
accepted row's source word, in first-insertion order (independent of the
language). -/
def keysAux (column_indices : List (String × Nat)) (english_idx : Nat)
    (data : List (List String)) (ks : List String) : List String :=
  data.foldl (fun ks parts =>
    if rowBlank parts = false ∧ dictValuesMax column_indices < parts.length then
      if pyLower (pyStrip (parts.getD english_idx "")) ∈ ks then ks
      else ks ++ [pyLower (pyStrip (parts.getD english_idx ""))]
    else ks) ks

theorem dictKeys_applyRows (cidx : List (String × Nat)) (targets : List String)
    (eidx : Nat) (lang : String) (hmem : lang ∈ targets) :
    ∀ (data : List (List String)) (m : WordMap),
      dictKeys (applyRows cidx targets eidx data lang m) = keysAux cidx eidx data (dictKeys m) := by
  intro data
  induction data with
  | nil => intro m; rfl
  | cons r rest ih =>
    intro m
    show dictKeys (applyRows cidx targets eidx rest lang (applyRow cidx targets eidx r lang m))
      = keysAux cidx eidx rest
          (if rowBlank r = false ∧ dictValuesMax cidx < r.length then
            if pyLower (pyStrip (r.getD eidx "")) ∈ dictKeys m then dictKeys m
            else dictKeys m ++ [pyLower (pyStrip (r.getD eidx ""))]
          else dictKeys m)
    rw [ih]
    congr 1
    unfold applyRow
    cases hb : rowBlank r with
    | true => simp
    | false =>
      have h1 : ¬(false = true) := by simp
      by_cases hl : dictValuesMax cidx < r.length
      · rw [if_neg h1, if_pos hl, if_pos hmem, dictKeys_dictInsert]
        simp [hl]
      · simp [hl]

/-- Every key inserted by the data-row loop is strip-fixed. -/
theorem applyRows_keys_strip_fixed (cidx : List (String × Nat)) (targets : List String)
    (eidx : Nat) (lang : String) :
    ∀ (data : List (List String)) (m : WordMap),
      (∀ q ∈ m, pyStrip q.1 = q.1) →
        ∀ q ∈ applyRows cidx targets eidx data lang m, pyStrip q.1 = q.1 := by
  intro data
  induction data with
  | nil => intro m hm; exact hm
  | cons r rest ih =>
    intro m hm
    show ∀ q ∈ applyRows cidx targets eidx rest lang (applyRow cidx targets eidx r lang m),
      pyStrip q.1 = q.1
    apply ih
    intro q hq
    unfold applyRow at hq
    by_cases hb : rowBlank r
    · rw [if_pos hb] at hq; exact hm q hq
    · rw [if_neg hb] at hq
      by_cases hl : dictValuesMax cidx < r.length
      · rw [if_pos hl] at hq
        by_cases ht : lang ∈ targets
        · rw [if_pos ht] at hq
          rcases mem_dictInsert hq with h1 | h1
          · exact hm q h1
          · rw [h1]
            exact pyStrip_pyLower_of_fixed (pyStrip_pyStrip _)
        · rw [if_neg ht] at hq; exact hm q hq
      · rw [if_neg hl] at hq; exact hm q hq

theorem lastAux_append (cidx : List (String × Nat)) (eidx : Nat) (lang w : String)
    (xs ys : List (List String)) (acc : Option String) :
    lastAux cidx eidx lang w (xs ++ ys) acc
      = lastAux cidx eidx lang w ys (lastAux cidx eidx lang w xs acc) := by
  unfold lastAux
  exact List.foldl_append _ _ _ _

theorem lastAux_of_no_match (cidx : List (String × Nat)) (eidx : Nat) (lang w : String) :
    ∀ (data : List (List String)) (acc : Option String),
      (∀ r ∈ data, ¬(rowBlank r = false ∧ dictValuesMax cidx < r.length ∧
          pyLower (pyStrip (r.getD eidx "")) = w)) →
        lastAux cidx eidx lang w data acc = acc := by
  intro data
  induction data with
  | nil => intro acc _; rfl
  | cons r rest ih =>
    intro acc h
    show lastAux cidx eidx lang w rest
        (if rowBlank r = false ∧ dictValuesMax cidx < r.length ∧
            pyLower (pyStrip (r.getD eidx "")) = w then
          some (pyStrip (r.getD ((dictGet cidx lang).getD 0) ""))
        else acc) = acc
    rw [if_neg (h r (List.mem_cons_self _ _))]
    exact ih acc (fun r' hr' => h r' (List.mem_cons_of_mem _ hr'))

theorem rowAccepted_iff (header_row parts : List String) :
    rowAccepted header_row parts = true ↔
      (rowBlank parts = false ∧
        dictValuesMax (buildColumnIndices (normHeaders header_row)) < parts.length) := by
  unfold rowAccepted
  simp [Bool.and_eq_true, Bool.not_eq_true']

/-- The main lookup lemma: if row `r` was accepted and no later accepted
row shares its source word, then for every detected target language the
loaded table maps `r`'s source word to `r`'s translation in that
language's column. -/
theorem load_lookup_of_last (header_row : List String) (pre post : List (List String))
    (r : List String)
    (hEng : "english" ∈ normHeaders header_row)
    (hacc : rowAccepted header_row r = true)
    (hpost : ∀ r' ∈ post, rowAccepted header_row r' = true →
      srcWord header_row r' ≠ srcWord header_row r)
    (lang : String) (hlang : lang ∈ detectedTargets header_row) :
    tableLookup (load_translations_from_rows (header_row :: (pre ++ r :: post))) lang
        (srcWord header_row r)
      = some (transFor header_row r lang) := by
  rw [load_eq_map _ _ hEng]
  unfold tableLookup
  rw [dictGet_map_keyfun, dictGet_initTable, if_pos hlang]
  simp only [Option.map_some']
  rw [dictGet_applyRows _ _ _ _ _ hlang]
  show lastAux _ _ lang (srcWord header_row r) (pre ++ r :: post) none = _
  rw [show pre ++ r :: post = (pre ++ [r]) ++ post by simp, lastAux_append, lastAux_append]
  have hcond : rowBlank r = false ∧
      dictValuesMax (buildColumnIndices (normHeaders header_row)) < r.length :=
    (rowAccepted_iff _ _).mp hacc
  have hstep : lastAux (buildColumnIndices (normHeaders header_row))
      (colIdx header_row "english") lang (srcWord header_row r) [r]
      (lastAux (buildColumnIndices (normHeaders header_row))
        (colIdx header_row "english") lang (srcWord header_row r) pre none)
      = some (transFor header_row r lang) := by
    show (if rowBlank r = false ∧ _ ∧ _ then _ else _) = _
    rw [if_pos ⟨hcond.1, hcond.2, rfl⟩]
    rfl
  rw [hstep]
  apply lastAux_of_no_match
  intro r' hr' hc
  exact hpost r' hr' ((rowAccepted_iff _ _).mpr ⟨hc.1, hc.2.1⟩) hc.2.2

/-- All word maps of a loaded table have the same key list. -/
theorem load_keys_indep (header_row : List String) (data : List (List String))
    (hEng : "english" ∈ normHeaders header_row) :
    ∀ lang m, (lang, m) ∈ load_translations_from_rows (header_row :: data) →
      dictKeys m = keysAux (buildColumnIndices (normHeaders header_row))
        (colIdx header_row "english") data [] := by
  intro lang m hmem
  rw [load_eq_map _ _ hEng] at hmem
  rw [List.mem_map] at hmem
  obtain ⟨p, hp, he⟩ := hmem
  obtain ⟨hp1, hp2⟩ := mem_initTable hp
  have h1 : lang = p.1 := congrArg Prod.fst he |>.symm
  have h2 : m = applyRows (buildColumnIndices (normHeaders header_row))
      (detectedTargets header_row) (colIdx header_row "english") data p.1 p.2 :=
    (congrArg Prod.snd he).symm
  rw [h2, dictKeys_applyRows _ _ _ _ hp1, hp2]
  rfl

/-- Every language key and every word key of a loaded table is
strip-fixed (it has no leading or trailing whitespace). -/
theorem load_table_strip_fixed (rows : List (List String)) :
    ∀ p ∈ load_translations_from_rows rows,
      pyStrip p.1 = p.1 ∧ ∀ q ∈ p.2, pyStrip q.1 = q.1 := by
  match rows with
  | [] => intro p hp; simp [load_translations_from_rows] at hp
  | header_row :: data =>
    intro p hp
    by_cases hEng : "english" ∈ normHeaders header_row
    · rw [load_eq_map _ _ hEng] at hp
      rw [List.mem_map] at hp
      obtain ⟨x, hx, he⟩ := hp
      obtain ⟨hx1, hx2⟩ := mem_initTable hx
      have htf : pyStrip x.1 = x.1 := by
        have hx1' : x.1 ∈ normHeaders header_row := List.mem_of_mem_filter hx1
        unfold normHeaders at hx1'
        rw [List.mem_map] at hx1'
        obtain ⟨h0, _, hh0⟩ := hx1'
        rw [← hh0]
        exact pyStrip_pyLower_of_fixed (pyStrip_pyStrip _)
      constructor
      · rw [← he]
        exact htf
      · rw [← he]
        apply applyRows_keys_strip_fixed
        rw [hx2]
        intro q hq
        simp at hq
    · rw [load_eq_nil _ _ hEng] at hp
      simp at hp

/-- With no available languages, the outer loop never leaves the outer
state except through `exit`; the shell keeps running and an `exit` at
the end of the input terminates it normally. -/
theorem shellRun_no_languages_exits (cfg : ShellConfig)
    (hempty : cfg.available_target_languages = []) :
    ∀ (us : List String) (s : ShellState), (s = .outer ∨ s = .exited) →
      (shellRun cfg s (us ++ ["exit"])).1 = .exited := by
  intro us
  induction us with
  | nil =>
    intro s hs
    rcases hs with hs | hs
    · subst hs
      simp [shellRun, shellStep, pyLower]
    · subst hs
      simp [shellRun, shellStep]
  | cons i rest ih =>
    intro s hs
    rcases hs with hs | hs
    · subst hs
      show (shellRun cfg ShellState.outer (i :: (rest ++ ["exit"]))).1 = ShellState.exited
      by_cases hexit : pyLower i = "exit"
      · simp [shellRun, shellStep, hexit]
      · have hnot : pyLower i ∉ cfg.available_target_languages := by
          rw [hempty]; simp
        simp only [shellRun, shellStep, if_neg hexit, if_pos hnot]
        exact ih ShellState.outer (Or.inl rfl)
    · subst hs
      simp [shellRun, shellStep]

/-! ## Claims -/

/-- C1 (counterexample): the claim fails as stated when a later accepted
row repeats the source word. Row `["cat", "chat"]` is accepted and
`french` is a detected target language, but looking up its source word
`cat` yields `minou` (the later row's translation), not `chat`. -/
theorem c1_counterexample :
    rowAccepted ["english", "french"] ["cat", "chat"] = true ∧
    "french" ∈ detectedTargets ["english", "french"] ∧
    srcWord ["english", "french"] ["cat", "chat"] = "cat" ∧
    transFor ["english", "french"] ["cat", "chat"] "french" = "chat" ∧
    tableLookup (load_translations_from_rows
        [["english", "french"], ["cat", "chat"], ["cat", "minou"]]) "french" "cat"
      = some "minou" ∧
    some ("minou" : String) ≠ some ("chat" : String) := by
  refine ⟨by decide, by decide, by decide, by decide, by decide, by decide⟩

/-- C1 (amended): for every accepted data row `r` and every target
language detected from the header, provided no later accepted row has the
same (trimmed, lowercased) source word, looking up `r`'s source word in
that language's word map of the returned table yields exactly the trimmed
translation from `r`'s column for that language. -/
theorem c1_lookup_accepted_row (header_row : List String) (pre post : List (List String))
    (r : List String)
    (hEng : "english" ∈ normHeaders header_row)
    (hacc : rowAccepted header_row r = true)
    (hpost : ∀ r' ∈ post, rowAccepted header_row r' = true →
      srcWord header_row r' ≠ srcWord header_row r)
    (lang : String) (hlang : lang ∈ detectedTargets header_row) :
    tableLookup (load_translations_from_rows (header_row :: (pre ++ r :: post))) lang
        (srcWord header_row r)
      = some (transFor header_row r lang) :=
  load_lookup_of_last header_row pre post r hEng hacc hpost lang hlang

/-- C1 (witness): the amended theorem applied to the spec's example in the
comma format the code actually reads. -/
theorem c1_lookup_accepted_row_witness :
    tableLookup (load_translations_from_rows
        [["english", "french", "german"], ["cat", "chat", "Katze"]]) "french" "cat"
      = some "chat" := by
  have h := c1_lookup_accepted_row ["english", "french", "german"] [] []
    ["cat", "chat", "Katze"] (by decide) (by decide) (by simp) "french" (by decide)
  exact h

/-- C2: when the header row has no (trimmed, lowercased) `english` field,
the loader returns the empty dictionary, so every word map occurring in
the table is empty and every lookup in every language misses. (The code
returns before detecting target languages, so the table carries no
language entries at all.) -/
theorem c2_missing_english_empty (header_row : List String) (data : List (List String))
    (hEng : "english" ∉ normHeaders header_row) :
    load_translations_from_rows (header_row :: data) = [] ∧
    (∀ lang m, (lang, m) ∈ load_translations_from_rows (header_row :: data) → m = []) ∧
    ∀ lang w, tableLookup (load_translations_from_rows (header_row :: data)) lang w = none := by
  have h := load_eq_nil header_row data hEng
  refine ⟨h, ?_, ?_⟩
  · intro lang m hmem
    rw [h] at hmem
    simp at hmem
  · intro lang w
    rw [h]
    rfl

/-- C2 (witness): a file whose header names only target languages. -/
theorem c2_missing_english_empty_witness :
    load_translations_from_rows [["french", "german"], ["chat", "Katze"]] = [] ∧
    tableLookup (load_translations_from_rows [["french", "german"], ["chat", "Katze"]])
      "french" "chat" = none := by
  have h := c2_missing_english_empty ["french", "german"] [["chat", "Katze"]] (by decide)
  exact ⟨h.1, h.2.2 "french" "chat"⟩

/-- C3: all word maps of a table built by the loader from one file have
identical key sets: every accepted row inserts its source word into every
detected target language's map, so the key lists coincide. -/
theorem c3_identical_key_sets (rows : List (List String)) :
    ∀ lang1 m1 lang2 m2, (lang1, m1) ∈ load_translations_from_rows rows →
      (lang2, m2) ∈ load_translations_from_rows rows → dictKeys m1 = dictKeys m2 := by
  match rows with
  | [] =>
    intro l1 m1 l2 m2 h1 _
    simp [load_translations_from_rows] at h1
  | header_row :: data =>
    intro l1 m1 l2 m2 h1 h2
    by_cases hEng : "english" ∈ normHeaders header_row
    · rw [load_keys_indep header_row data hEng l1 m1 h1,
        load_keys_indep header_row data hEng l2 m2 h2]
    · rw [load_eq_nil _ _ hEng] at h1
      simp at h1

/-- C3 (witness): two languages, two rows; both word maps list the same
keys. -/
theorem c3_identical_key_sets_witness :
    ("french", [("cat", "chat"), ("dog", "chien")]) ∈ load_translations_from_rows
      [["english", "french", "german"], ["cat", "chat", "Katze"], ["dog", "chien", "Hund"]] ∧
    ("german", [("cat", "Katze"), ("dog", "Hund")]) ∈ load_translations_from_rows
      [["english", "french", "german"], ["cat", "chat", "Katze"], ["dog", "chien", "Hund"]] ∧
    dictKeys [("cat", "chat"), ("dog", "chien")] = dictKeys [("cat", "Katze"), ("dog", "Hund")] :=
  ⟨by decide, by decide,
    c3_identical_key_sets
      [["english", "french", "german"], ["cat", "chat", "Katze"], ["dog", "chien", "Hund"]]
      "french" _ "german" _ (by decide) (by decide)⟩

/-- C4 (counterexample): a data row whose fields are all whitespace is
caught by the blank-row test (line 93) before the column-count test, so a
blank row with too few fields is skipped with NO warning: the claim's
"after logging a warning" fails for it. Here `[" "]` has 1 field although
the highest required column index (1) demands 2. -/
theorem c4_counterexample :
    ([" "] : List String).length ≤
      dictValuesMax (buildColumnIndices (normHeaders ["english", "french"])) ∧
    load_log [["english", "french"], [" "]] = [] ∧
    load_translations_from_rows [["english", "french"], [" "]] = [("french", [])] := by
  refine ⟨by decide, by decide, by decide⟩

/-- C4 (amended): every NON-BLANK data row with fewer fields than the
highest required column index demands is skipped after logging a warning
and contributes nothing to the table (the loaded table equals the one
loaded without that row); rows whose fields are all whitespace are
skipped silently. -/
theorem c4_short_row_skipped (header_row : List String) (pre post : List (List String))
    (r : List String)
    (hEng : "english" ∈ normHeaders header_row)
    (hblank : rowBlank r = false)
    (hshort : ¬dictValuesMax (buildColumnIndices (normHeaders header_row)) < r.length) :
    load_translations_from_rows (header_row :: (pre ++ r :: post))
      = load_translations_from_rows (header_row :: (pre ++ post)) ∧
    LogMsg.warningMalformedRow r ∈ load_log (header_row :: (pre ++ r :: post)) := by
  have hSome : (dictGet (buildColumnIndices (normHeaders header_row)) "english").isSome = true :=
    (dictGet_buildColumnIndices_isSome _ _).mpr hEng
  obtain ⟨i, hi⟩ := Option.isSome_iff_exists.mp hSome
  constructor
  · simp only [load_translations_from_rows, hi, Option.isNone_some, Bool.false_eq_true, if_false]
    rw [List.foldl_append, List.foldl_cons, List.foldl_append]
    congr 1
    unfold processRow
    by_cases hb : rowBlank r
    · rw [if_pos hb]
    · rw [if_neg hb, if_neg hshort]
  · simp only [load_log, hi, Option.isNone_some, Bool.false_eq_true, if_false]
    rw [List.mem_filterMap]
    refine ⟨r, by simp, ?_⟩
    rw [if_neg (by rw [hblank]; simp), if_neg hshort]

/-- C4 (witness): the malformed row `["cat"]` is skipped with a warning
and the resulting table is the one built without it. -/
theorem c4_short_row_skipped_witness :
    load_translations_from_rows [["english", "french"], ["cat"], ["dog", "chien"]]
      = load_translations_from_rows [["english", "french"], ["dog", "chien"]] ∧
    LogMsg.warningMalformedRow ["cat"]
      ∈ load_log [["english", "french"], ["cat"], ["dog", "chien"]] := by
  have h := c4_short_row_skipped ["english", "french"] [] [["dog", "chien"]] ["cat"]
    (by decide) (by decide) (by decide)
  exact h

/-- C5: when two accepted rows carry the same (trimmed, lowercased)
source word and no accepted row after the second carries it again, every
detected target language maps that word to the second (later) row's
translation: last row wins. -/
theorem c5_duplicate_last_wins (header_row : List String)
    (pre mid post : List (List String)) (r1 r2 : List String)
    (hEng : "english" ∈ normHeaders header_row)
    (_hacc1 : rowAccepted header_row r1 = true)
    (hacc2 : rowAccepted header_row r2 = true)
    (_hdup : srcWord header_row r1 = srcWord header_row r2)
    (hpost : ∀ r' ∈ post, rowAccepted header_row r' = true →
      srcWord header_row r' ≠ srcWord header_row r2)
    (lang : String) (hlang : lang ∈ detectedTargets header_row) :
    tableLookup (load_translations_from_rows
        (header_row :: (pre ++ r1 :: (mid ++ r2 :: post)))) lang (srcWord header_row r2)
      = some (transFor header_row r2 lang) := by
  have h := load_lookup_of_last header_row (pre ++ r1 :: mid) post r2 hEng hacc2 hpost lang hlang
  rw [show (pre ++ r1 :: mid) ++ r2 :: post = pre ++ r1 :: (mid ++ r2 :: post) by simp] at h
  exact h

/-- C5 (witness): `cat` appears twice; the lookup returns the second
row's translation `minou`. -/
theorem c5_duplicate_last_wins_witness :
    tableLookup (load_translations_from_rows
        [["english", "french"], ["cat", "chat"], ["cat", "minou"]]) "french" "cat"
      = some "minou" := by
  have h := c5_duplicate_last_wins ["english", "french"] [] [] [] ["cat", "chat"]
    ["cat", "minou"] (by decide) (by decide) (by decide) (by decide) (by simp)
    "french" (by decide)
  exact h

/-- C6: a missing file, an unreadable file, or any other I/O error makes
the loader return the empty table together with a printed error message,
and the shell still runs: from the language prompt, any sequence of
inputs followed by `exit` terminates the program normally instead of
aborting. -/
theorem c6_io_error_graceful (e : FileInput)
    (he : e = FileInput.fileNotFound ∨ e = FileInput.ioError) :
    (load_translations_from_file e).1 = [] ∧
    ((load_translations_from_file e).2 = [LogMsg.errorFileNotFound] ∨
      (load_translations_from_file e).2 = [LogMsg.errorUnexpected]) ∧
    ∀ us : List String,
      (shellRun (mkConfig (load_translations_from_file e).1) ShellState.outer
        (us ++ ["exit"])).1 = ShellState.exited := by
  rcases he with he | he <;> subst he
  · exact ⟨rfl, Or.inl rfl,
      fun us => shellRun_no_languages_exits _ rfl us ShellState.outer (Or.inl rfl)⟩
  · exact ⟨rfl, Or.inr rfl,
      fun us => shellRun_no_languages_exits _ rfl us ShellState.outer (Or.inl rfl)⟩

/-- C6 (witness): a missing file; the shell processes a stray input and
`exit` and terminates normally. -/
theorem c6_io_error_graceful_witness :
    (load_translations_from_file FileInput.fileNotFound).1 = [] ∧
    (shellRun (mkConfig (load_translations_from_file FileInput.fileNotFound).1)
      ShellState.outer ["french", "exit"]).1 = ShellState.exited := by
  have h := c6_io_error_graceful FileInput.fileNotFound (Or.inl rfl)
  exact ⟨h.1, h.2.2 ["french"]⟩

/-- C7 (counterexample): the claim fails as stated when the stored
translation is the empty string. `cat` IS a key of the `french` word map
(the lookup is `some`), yet the shell stays in the inner state and prints
the not-available guidance instead of printing a translation and
returning to the outer state. -/
theorem c7_counterexample :
    (tableLookup (mkConfig [("french", [("cat", "")])]).all_translations "french" "cat").isSome
      = true ∧
    shellStep (mkConfig [("french", [("cat", "")])]) (ShellState.inner "french") "cat"
      = (ShellState.inner "french",
          [ShellOut.notAvailable "cat" "french", ShellOut.guidance]) := by
  refine ⟨by decide, by decide⟩

/-- C7 (amended): in the inner word-lookup state, for an input other than
`back`: if the lowercased word is found in the selected language's word
map WITH A NON-EMPTY translation, the shell prints the translation and
returns to the outer state; if it is not found, the shell prints the
guidance messages and stays in the inner state. -/
theorem c7_inner_step (cfg : ShellConfig) (lang input : String)
    (hback : pyLower input ≠ "back")
    (_hlang : lang ∈ dictKeys cfg.all_translations) :
    (∀ tr, tableLookup cfg.all_translations lang (pyLower input) = some tr → tr ≠ "" →
      shellStep cfg (ShellState.inner lang) input
        = (ShellState.outer, [ShellOut.translationIs (pyLower input) lang tr])) ∧
    (tableLookup cfg.all_translations lang (pyLower input) = none →
      shellStep cfg (ShellState.inner lang) input
        = (ShellState.inner lang,
            [ShellOut.notAvailable (pyLower input) lang, ShellOut.guidance])) := by
  constructor
  · intro tr hfound hne
    have hde : tr.data.isEmpty = false := by
      cases tr with
      | mk d =>
        cases d with
        | nil => exact absurd rfl hne
        | cons c cs => rfl
    simp only [shellStep, if_neg hback, hfound, hde, Bool.false_eq_true, if_false]
  · intro hnone
    simp only [shellStep, if_neg hback, hnone]

/-- C7 (witness): a hit on `cat` returns to the outer state with the
translation; a miss on `dog` stays in the inner state. -/
theorem c7_inner_step_witness :
    shellStep (mkConfig [("french", [("cat", "chat")])]) (ShellState.inner "french") "cat"
      = (ShellState.outer, [ShellOut.translationIs "cat" "french" "chat"]) ∧
    shellStep (mkConfig [("french", [("cat", "chat")])]) (ShellState.inner "french") "dog"
      = (ShellState.inner "french",
          [ShellOut.notAvailable "dog" "french", ShellOut.guidance]) := by
  refine ⟨(c7_inner_step (mkConfig [("french", [("cat", "chat")])]) "french" "cat"
      (by decide) (by decide)).1 "chat" (by decide) (by decide),
    (c7_inner_step (mkConfig [("french", [("cat", "chat")])]) "french" "dog"
      (by decide) (by decide)).2 (by decide)⟩

/-- C8 (counterexample): a tab-separated file is NOT accepted: its header
line parses as a single comma-field, so the `english` column is not found
and the loader returns the empty table with no word map for `french`,
instead of one word map per non-source header column. -/
theorem c8_counterexample :
    parseFile ["english\tfrench\tgerman", "cat\tchat\tKatze"]
      = [["english\tfrench\tgerman"], ["cat\tchat\tKatze"]] ∧
    load_translations_from_rows (parseFile ["english\tfrench\tgerman", "cat\tchat\tKatze"])
      = [] ∧
    dictGet (load_translations_from_rows
        (parseFile ["english\tfrench\tgerman", "cat\tchat\tKatze"])) "french" = none := by
  refine ⟨by decide, by decide, by decide⟩

/-- C8 (amended): the loader accepts comma-separated files only. For
every comma-separated file whose header contains a case-insensitive
`english` field, the built table has exactly one word map per distinct
non-source header column name: a language has a word map iff it is a
detected target of the header line. -/
theorem c8_comma_separated_table (headerLine : String) (dataLines : List String)
    (hEng : "english" ∈ normHeaders (splitLine headerLine)) :
    ∀ lang, (dictGet (load_translations_from_rows (parseFile (headerLine :: dataLines)))
        lang).isSome = true
      ↔ lang ∈ detectedTargets (splitLine headerLine) := by
  intro lang
  show (dictGet (load_translations_from_rows
      (splitLine headerLine :: parseFile dataLines)) lang).isSome = true ↔ _
  rw [load_eq_map _ _ hEng, dictGet_map_keyfun, dictGet_initTable]
  by_cases h : lang ∈ detectedTargets (splitLine headerLine)
  · simp [h]
  · simp [h]

/-- C8 (witness): a comma-separated file yields a `french` word map. -/
theorem c8_comma_separated_table_witness :
    (dictGet (load_translations_from_rows (parseFile ["english,french", "cat,chat"]))
      "french").isSome = true :=
  (c8_comma_separated_table "english,french" ["cat,chat"] (by decide) "french").mpr (by decide)

/-- C9: a stored empty-string translation is falsy in Python, so the
shell treats the lookup exactly like a miss: it prints the not-available
guidance and stays in the inner word-lookup state, although the word is a
key of the word map. -/
theorem c9_empty_translation_is_miss (cfg : ShellConfig) (lang input : String)
    (hback : pyLower input ≠ "back")
    (hfound : tableLookup cfg.all_translations lang (pyLower input) = some "") :
    shellStep cfg (ShellState.inner lang) input
      = (ShellState.inner lang,
          [ShellOut.notAvailable (pyLower input) lang, ShellOut.guidance]) := by
  simp only [shellStep, if_neg hback, hfound, List.isEmpty_nil, if_true]

/-- C9 (witness): `cat` maps to the empty string; the shell stays in the
inner state with the guidance output. -/
theorem c9_empty_translation_is_miss_witness :
    shellStep (mkConfig [("french", [("cat", "")])]) (ShellState.inner "french") "cat"
      = (ShellState.inner "french",
          [ShellOut.notAvailable "cat" "french", ShellOut.guidance]) :=
  c9_empty_translation_is_miss (mkConfig [("french", [("cat", "")])]) "french" "cat"
    (by decide) (by decide)

/-- C10: shell inputs are lowercased but never stripped, while every
stored language name and word key is stripped before storage and the two
keywords contain no whitespace; hence an input with leading or trailing
whitespace equals no keyword, no available language, and hits no stored
word, whatever file input produced the table. -/
theorem c10_whitespace_input_matches_nothing (input : FileInput) (s : String)
    (hws : pyStrip s ≠ s) :
    pyLower s ≠ "exit" ∧ pyLower s ≠ "back" ∧
    pyLower s ∉ (mkConfig (load_translations_from_file input).1).available_target_languages ∧
    ∀ lang m, (lang, m) ∈ (load_translations_from_file input).1 →
      dictGet m (pyLower s) = none := by
  have htab : ∀ p ∈ (load_translations_from_file input).1,
      pyStrip p.1 = p.1 ∧ ∀ q ∈ p.2, pyStrip q.1 = q.1 := by
    cases input with
    | fileNotFound => intro p hp; simp [load_translations_from_file] at hp
    | ioError => intro p hp; simp [load_translations_from_file] at hp
    | content rows => exact load_table_strip_fixed rows
  refine ⟨pyLower_ne_of_strip_fixed (by decide) hws,
    pyLower_ne_of_strip_fixed (by decide) hws, ?_, ?_⟩
  · intro hmem
    have hmem' : pyLower s ∈ ((load_translations_from_file input).1).map Prod.fst := hmem
    rw [List.mem_map] at hmem'
    obtain ⟨p, hp, hpe⟩ := hmem'
    exact pyLower_ne_of_strip_fixed (htab p hp).1 hws hpe.symm
  · intro lang m hmem
    apply dictGet_eq_none
    intro q hq he
    exact pyLower_ne_of_strip_fixed ((htab (lang, m) hmem).2 q hq) hws he.symm

/-- C10 (witness): the input `" cat"` (leading space) matches neither
keyword, no language, and no stored word of a table that does store
`cat`. -/
theorem c10_whitespace_input_matches_nothing_witness :
    pyStrip " cat" ≠ " cat" ∧
    pyLower " cat" ≠ "exit" ∧
    pyLower " cat" ∉ (mkConfig (load_translations_from_file
      (FileInput.content [["english", "french"], ["cat", "chat"]])).1).available_target_languages :=
  ⟨by decide,
    (c10_whitespace_input_matches_nothing
      (FileInput.content [["english", "french"], ["cat", "chat"]]) " cat" (by decide)).1,
    (c10_whitespace_input_matches_nothing
      (FileInput.content [["english", "french"], ["cat", "chat"]]) " cat" (by decide)).2.2.1⟩

end Translator
